import Mathlib

/-!
Shallow embedding of `src/linkedlist/linkedlist.go` (package `linkedlist`),
a singly-linked list over a comparable element type.

Go's node pointers are modelled by a heap: a list of allocated `Node`s,
addressed by their index.  A `*node[T]` value is an `Option Nat` (`none` is
Go's `nil`).  Allocation (`&node[T]{...}`) appends a cell to the heap; the heap
never shrinks (garbage collection frees unreachable cells but never reuses an
address within a run of the model).  Mutating a field of a node writes the
heap at that node's address, so aliasing (in particular a `tail` reference
that dangles off the chain) behaves exactly as in Go.

Go loops are run with explicit fuel; an operation returns `none` when it
dereferences a nil pointer (a Go panic) or when its fuel runs out (which, as
the theorems show, cannot happen on well-formed states).  Methods are
functions taking the receiver and returning the updated state explicitly.
-/

set_option autoImplicit false

namespace linkedlist

/-- Embeds `node[T]` (linkedlist.go:11): a value and a pointer to the next
node (`Option Nat` is `*node[T]`, `none` is `nil`). -/
structure Node (T : Type) where
  value : T
  next  : Option Nat
deriving DecidableEq

/-- The heap of allocated nodes; a pointer is an index into this list. -/
abbrev Heap (T : Type) := List (Node T)

/-- Dereference a node pointer. `none` means the address was never
allocated (impossible for pointers produced by this model). -/
def Heap.get {T : Type} (h : Heap T) (a : Nat) : Option (Node T) :=
  List.get? h a

/-- Overwrite the node stored at address `a` (a field assignment through a
pointer in Go). -/
def Heap.set {T : Type} (h : Heap T) (a : Nat) (n : Node T) : Heap T :=
  List.set h a n

/-- Allocate a fresh node, returning the new heap and the fresh address. -/
def Heap.alloc {T : Type} (h : Heap T) (n : Node T) : Heap T × Nat :=
  (h ++ [n], h.length)

/-- Embeds `newNode` (linkedlist.go:18): a node with the received value and
`next` set to `nil`. -/
def newNode {T : Type} (value : T) : Node T :=
  { value := value, next := none }

/-- Embeds `LinkedList[T]` (linkedlist.go:26): pointers to the first and last
nodes and the cached `size` counter (a Go `int`). -/
structure LinkedList (T : Type) where
  head : Option Nat
  tail : Option Nat
  size : Int
deriving DecidableEq

/-- Embeds `NewLinkedList` (linkedlist.go:37): the empty list; `size` is the
zero value of `int`. -/
def NewLinkedList (T : Type) : LinkedList T :=
  { head := none, tail := none, size := 0 }

/-- Embeds `Append` (linkedlist.go:43).  In the non-empty branch Go writes
`l.tail.next = newNode`, dereferencing `l.tail`; the result is `none` if that
pointer is `nil` or dangling off the heap. -/
def Append {T : Type} (h : Heap T) (l : LinkedList T) (value : T) :
    Option (Heap T × LinkedList T) :=
  let (h1, a) := h.alloc (newNode value)
  match l.head with
  | none => some (h1, { head := some a, tail := some a, size := l.size + 1 })
  | some _ =>
    match l.tail with
    | none => none
    | some t =>
      match h1.get t with
      | none => none
      | some tn =>
        some (h1.set t { tn with next := some a },
              { l with tail := some a, size := l.size + 1 })

/-- Embeds `Prepend` (linkedlist.go:59): the fresh node's `next` is rewired
to the old head. -/
def Prepend {T : Type} (h : Heap T) (l : LinkedList T) (value : T) :
    Heap T × LinkedList T :=
  let (h1, a) := h.alloc (newNode value)
  match l.head with
  | none => (h1, { head := some a, tail := some a, size := l.size + 1 })
  | some hd =>
    (h1.set a { value := value, next := some hd },
     { l with head := some a, size := l.size + 1 })

/-- Embeds the walk of `InsertAt` (linkedlist.go:87):
`for current != nil && position > 1 { current = current.next; position--; l.size++ }`.
Returns the final `current`, `position` and `size`.  Fuel models loop
progress: each iteration strictly decreases `position`, so `position.toNat`
fuel always suffices. -/
def insertAtLoop {T : Type} (h : Heap T) :
    Nat → Option Nat → Int → Int → Option (Option Nat × Int × Int)
  | _, none, position, size => some (none, position, size)
  | 0, some a, position, size =>
    if position > 1 then none else some (some a, position, size)
  | fuel + 1, some a, position, size =>
    if position > 1 then
      match h.get a with
      | none => none
      | some n => insertAtLoop h fuel n.next (position - 1) (size + 1)
    else some (some a, position, size)

/-- Embeds `InsertAt` (linkedlist.go:76).  Negative position: immediate
return.  Position `0`: allocates the (unused) outer node, then calls
`Prepend` and increments `size` a second time.  Otherwise walks the chain;
if the walk runs off the end the call returns with only the `size`
increments of the walk; otherwise the fresh node is spliced in after
`current`. -/
def InsertAt {T : Type} (h : Heap T) (l : LinkedList T) (value : T)
    (position : Int) : Option (Heap T × LinkedList T) :=
  if position < 0 then some (h, l)
  else
    let (h1, a) := h.alloc (newNode value)
    if position = 0 then
      let (h2, l2) := Prepend h1 l value
      some (h2, { l2 with size := l2.size + 1 })
    else
      match insertAtLoop h1 position.toNat l.head position l.size with
      | none => none
      | some (current, _, size1) =>
        match current with
        | none => some (h1, { l with size := size1 })
        | some c =>
          match h1.get c with
          | none => none
          | some cn =>
            some ((h1.set a { value := value, next := cn.next }).set c
                    { cn with next := some a },
                  { l with size := size1 })

/-- Embeds the scan of `Remove` (linkedlist.go:111):
`for current.next != nil { if current.next.value == value {...} ... }`.
The `Bool` records whether a node was unlinked (and `size` decremented). -/
def removeLoop {T : Type} [DecidableEq T] (h : Heap T) (value : T) :
    Nat → Nat → Option (Heap T × Bool)
  | 0, _ => none
  | fuel + 1, current =>
    match h.get current with
    | none => none
    | some cn =>
      match cn.next with
      | none => some (h, false)
      | some nx =>
        match h.get nx with
        | none => none
        | some nxn =>
          if nxn.value = value then
            some (h.set current { cn with next := nxn.next }, true)
          else
            removeLoop h value fuel nx

/-- Embeds `Remove` (linkedlist.go:101).  Note that neither removal branch
updates `tail`. -/
def Remove {T : Type} [DecidableEq T] (h : Heap T) (l : LinkedList T)
    (value : T) : Option (Heap T × LinkedList T) :=
  match l.head with
  | none => some (h, l)
  | some hd =>
    match h.get hd with
    | none => none
    | some hn =>
      if hn.value = value then
        some (h, { l with head := hn.next, size := l.size - 1 })
      else
        match removeLoop h value (h.length + 1) hd with
        | none => none
        | some (h1, removed) =>
          some (h1, { l with size := if removed then l.size - 1 else l.size })

/-- Embeds the rendering loop of `String` (linkedlist.go:131): append the
value, then a space whenever a next node exists. -/
def stringLoop {T : Type} [ToString T] (h : Heap T) :
    Nat → Option Nat → String → Option String
  | _, none, acc => some acc
  | 0, some _, _ => none
  | fuel + 1, some a, acc =>
    match h.get a with
    | none => none
    | some n =>
      stringLoop h fuel n.next
        (acc ++ toString n.value ++ (if n.next.isSome then " " else ""))

/-- Embeds `String` (linkedlist.go:125), the `[v1 v2 v3]` rendering.  Named
`String'` because `String` would shadow the string type. -/
def String' {T : Type} [ToString T] (h : Heap T) (l : LinkedList T) :
    Option String :=
  match l.head with
  | none => some "[]"
  | some _ =>
    match stringLoop h (h.length + 1) l.head "[" with
    | none => none
    | some s => some (s ++ "]")

/-- Embeds the scan of `Search` (linkedlist.go:151). -/
def searchLoop {T : Type} [DecidableEq T] (h : Heap T) (value : T) :
    Nat → Option Nat → Int → Option Int
  | _, none, _ => some (-1)
  | 0, some _, _ => none
  | fuel + 1, some a, position =>
    match h.get a with
    | none => none
    | some n =>
      if n.value = value then some position
      else searchLoop h value fuel n.next (position + 1)

/-- Embeds `Search` (linkedlist.go:145): zero-based position of the first
match, `-1` when absent or when the list is empty. -/
def Search {T : Type} [DecidableEq T] (h : Heap T) (l : LinkedList T)
    (value : T) : Option Int :=
  match l.head with
  | none => some (-1)
  | some _ => searchLoop h value (h.length + 1) l.head 0

/-- Embeds the walk of `Get` (linkedlist.go:170):
`for current != nil && position > 0 { current = current.next; position-- }`.
Returns the final `current`. -/
def getLoop {T : Type} (h : Heap T) :
    Nat → Option Nat → Int → Option (Option Nat)
  | _, none, _ => some none
  | 0, some a, position =>
    if position > 0 then none else some (some a)
  | fuel + 1, some a, position =>
    if position > 0 then
      match h.get a with
      | none => none
      | some n => getLoop h fuel n.next (position - 1)
    else some (some a)

/-- Embeds `Get` (linkedlist.go:164).  Go returns the pair
`(T, error)`; here `Except.error` carries the message handed to
`errors.New` and `Except.ok` the value returned alongside a `nil` error. -/
def Get {T : Type} (h : Heap T) (l : LinkedList T) (position : Int) :
    Option (Except String T) :=
  match l.head with
  | none => some (Except.error "lista vacía")
  | some _ =>
    match getLoop h (position.toNat + 1) l.head position with
    | none => none
    | some none => some (Except.error "posición inválida")
    | some (some a) =>
      match h.get a with
      | none => none
      | some n => some (Except.ok n.value)

/-- Embeds the counting loop of `Size` (linkedlist.go:189). -/
def sizeLoop {T : Type} (h : Heap T) : Nat → Option Nat → Int → Option Int
  | _, none, position => some position
  | 0, some _, _ => none
  | fuel + 1, some a, position =>
    match h.get a with
    | none => none
    | some n => sizeLoop h fuel n.next (position + 1)

/-- Embeds `Size` (linkedlist.go:183): recomputes the length by traversal,
ignoring the cached `size` field. -/
def Size {T : Type} (h : Heap T) (l : LinkedList T) : Option Int :=
  match l.head with
  | none => some 0
  | some _ => sizeLoop h (h.length + 1) l.head 0

/-- Result of `ConcatenarListas`: the heap, the receiver `l` and the
argument objects `*l1`, `*l2` after the call, and the returned pointer
(`none` is a `nil` return).  The Go body assigns fields of `*l1` only and
never assigns through `l` or `l2`. -/
structure ConcatResult (T : Type) where
  heap : Heap T
  recv : LinkedList T
  l1after : Option (LinkedList T)
  l2after : Option (LinkedList T)
  ret : Option (LinkedList T)
deriving DecidableEq

/-- Embeds `ConcatenarListas` (linkedlist.go:196).  `l1.head` is read before
anything else, so a `nil` `l1` panics (`none` result); when `l1` is empty
`l2` is returned without being dereferenced (so a `nil` `l2` is returned
as-is); otherwise `l2.head` is read (panicking on `nil` `l2`) and the two
chains are spliced destructively. -/
def ConcatenarListas {T : Type} (h : Heap T) (l : LinkedList T)
    (l1 l2 : Option (LinkedList T)) : Option (ConcatResult T) :=
  match l1 with
  | none => none
  | some L1 =>
    match L1.head with
    | none => some ⟨h, l, some L1, l2, l2⟩
    | some _ =>
      match l2 with
      | none => none
      | some L2 =>
        match L2.head with
        | none => some ⟨h, l, some L1, some L2, some L1⟩
        | some _ =>
          match L1.tail with
          | none => none
          | some t =>
            match h.get t with
            | none => none
            | some tn =>
              let L1' : LinkedList T :=
                { head := L1.head, tail := L2.tail, size := L1.size + L2.size }
              some ⟨h.set t { tn with next := L2.head }, l,
                    some L1', some L2, some L1'⟩

/-- Embeds the first loop of `IntercalarListas` (linkedlist.go:222): while
both cursors are non-nil, append the value under each in turn, then advance
both (each advance re-reads the node, as `current1 = current1.next` does). -/
def intercalarLoop {T : Type} :
    Heap T → Nat → Option Nat → Option Nat → LinkedList T →
      Option (Heap T × LinkedList T × Option Nat × Option Nat)
  | h, _, none, c2, result => some (h, result, none, c2)
  | h, _, some a1, none, result => some (h, result, some a1, none)
  | _, 0, some _, some _, _ => none
  | h, fuel + 1, some a1, some a2, result =>
    match h.get a1 with
    | none => none
    | some n1 =>
      match Append h result n1.value with
      | none => none
      | some (h1, r1) =>
        match h1.get a2 with
        | none => none
        | some n2 =>
          match Append h1 r1 n2.value with
          | none => none
          | some (h2, r2) =>
            match h2.get a1, h2.get a2 with
            | some m1, some m2 => intercalarLoop h2 fuel m1.next m2.next r2
            | _, _ => none

/-- Embeds the two trailing loops of `IntercalarListas` (linkedlist.go:230
and linkedlist.go:234), which have identical bodies: append the remaining
values of one cursor's chain. -/
def appendRest {T : Type} :
    Heap T → Nat → Option Nat → LinkedList T → Option (Heap T × LinkedList T)
  | h, _, none, result => some (h, result)
  | _, 0, some _, _ => none
  | h, fuel + 1, some a, result =>
    match h.get a with
    | none => none
    | some n =>
      match Append h result n.value with
      | none => none
      | some (h1, r1) =>
        match h1.get a with
        | none => none
        | some m => appendRest h1 fuel m.next r1

/-- Embeds `IntercalarListas` (linkedlist.go:212): `nil` for either input
gives a `nil` return; otherwise a fresh zero-valued list is filled by the
three loops and returned.  The triple is (heap, receiver, returned pointer);
the body never assigns through `l`, `l1` or `l2`. -/
def IntercalarListas {T : Type} (h : Heap T) (l : LinkedList T)
    (l1 l2 : Option (LinkedList T)) :
    Option (Heap T × LinkedList T × Option (LinkedList T)) :=
  match l1, l2 with
  | none, _ => some (h, l, none)
  | some _, none => some (h, l, none)
  | some L1, some L2 =>
    let result : LinkedList T := { head := none, tail := none, size := 0 }
    match intercalarLoop h (h.length + 1) L1.head L2.head result with
    | none => none
    | some (h1, r1, c1, c2) =>
      match appendRest h1 (h.length + 1) c1 r1 with
      | none => none
      | some (h2, r2) =>
        match appendRest h2 (h.length + 1) c2 r2 with
        | none => none
        | some (h3, r3) => some (h3, l, some r3)

/-- A sequence of `Append` calls, one per element of the list, as in the
spec's "for all sequences of `append` calls with values `v1..vn`". -/
def appendAll {T : Type} (h : Heap T) (l : LinkedList T) :
    List T → Option (Heap T × LinkedList T)
  | [] => some (h, l)
  | v :: vs =>
    match Append h l v with
    | none => none
    | some (h', l') => appendAll h' l' vs

/-- Space-separated rendering of a value sequence, the body of the spec's
`[v1 v2 ... vn]` format. -/
def renderInner {T : Type} [ToString T] : List T → String
  | [] => ""
  | [v] => toString v
  | v :: w :: vs => toString v ++ " " ++ renderInner (w :: vs)

/-- The spec's rendered string `[v1 v2 ... vn]` (so `[]` for the empty
sequence). -/
def renderSpec {T : Type} [ToString T] (vs : List T) : String :=
  "[" ++ renderInner vs ++ "]"

/-- Modelled from the spec: "alternately appending one value from each input
while both still have remaining nodes, then appends whichever input has
leftover nodes in full". -/
def interleaveSpec {T : Type} : List T → List T → List T
  | [], ys => ys
  | x :: xs, [] => x :: xs
  | x :: xs, y :: ys => x :: y :: interleaveSpec xs ys

/-- The alternating prefix of `interleaveSpec`: the pairs taken while both
lists still have elements. -/
def interleavePairs {T : Type} : List T → List T → List T
  | x :: xs, y :: ys => x :: y :: interleavePairs xs ys
  | _, _ => []

/-- The chain of node addresses `as` with stored values `vs` reached by
following `next` pointers from `p` until `nil`.  This is the
representation predicate tying a pointer into the heap to the abstract
value sequence it stores. -/
inductive ChainV {T : Type} (h : Heap T) : Option Nat → List Nat → List T → Prop
  | nil : ChainV h none [] []
  | cons {a : Nat} {v : T} {nx : Option Nat} {as : List Nat} {vs : List T} :
      h.get a = some { value := v, next := nx } → ChainV h nx as vs →
      ChainV h (some a) (a :: as) (v :: vs)

/-- Invariant of the result list being built by `IntercalarListas`: it is a
well-formed list (chain plus accurate tail) whose nodes all live at
addresses at least `B`, the heap size before the call — so the result is
brand-new and disjoint from both source lists. -/
def ResInv {T : Type} (B : Nat) (h : Heap T) (res : LinkedList T)
    (ras : List Nat) (rvs : List T) : Prop :=
  ChainV h res.head ras rvs ∧ res.tail = ras.getLast? ∧
    (∀ b ∈ ras, B ≤ b) ∧ B ≤ h.length

theorem Heap.get_lt {T : Type} {h : Heap T} {a : Nat} {n : Node T}
    (hg : h.get a = some n) : a < h.length := by
  rcases List.get?_eq_some.mp hg with ⟨hlt, -⟩
  exact hlt

theorem Heap.get_append {T : Type} {h : Heap T} (h2 : Heap T) {a : Nat}
    (ha : a < h.length) : Heap.get (h ++ h2) a = h.get a := by
  simp [Heap.get, List.get?_eq_getElem?, List.getElem?_append_left ha]

theorem Heap.get_concat_self {T : Type} (h : Heap T) (n : Node T) :
    Heap.get (h ++ [n]) h.length = some n := by
  simp [Heap.get, List.get?_eq_getElem?, List.getElem?_concat_length]

theorem Heap.get_set_self {T : Type} {h : Heap T} {a : Nat} (n : Node T)
    (ha : a < h.length) : Heap.get (h.set a n) a = some n := by
  simp [Heap.get, Heap.set, List.get?_eq_getElem?, List.getElem?_set_self ha]

theorem Heap.get_set_ne {T : Type} {h : Heap T} {a b : Nat} (n : Node T)
    (hab : a ≠ b) : Heap.get (h.set a n) b = h.get b := by
  simp [Heap.get, Heap.set, List.get?_eq_getElem?, List.getElem?_set_ne hab]

theorem Heap.length_set {T : Type} (h : Heap T) (a : Nat) (n : Node T) :
    (h.set a n).length = h.length :=
  List.length_set h a n

theorem ChainV.length_eq {T : Type} {h : Heap T} {p : Option Nat}
    {as : List Nat} {vs : List T} (hc : ChainV h p as vs) :
    as.length = vs.length := by
  induction hc with
  | nil => rfl
  | cons _ _ ih => simpa using ih

theorem ChainV.addr_lt {T : Type} {h : Heap T} {p : Option Nat}
    {as : List Nat} {vs : List T} (hc : ChainV h p as vs) :
    ∀ a ∈ as, a < h.length := by
  induction hc with
  | nil => intro a ha; cases ha
  | cons hg _ ih =>
    intro b hb
    rcases List.mem_cons.mp hb with hb | hb
    · exact hb ▸ Heap.get_lt hg
    · exact ih b hb

theorem ChainV.deterministic {T : Type} {h : Heap T} {p : Option Nat}
    {as bs : List Nat} {vs ws : List T} (hc : ChainV h p as vs)
    (hd : ChainV h p bs ws) : as = bs ∧ vs = ws := by
  induction hc generalizing bs ws with
  | nil => cases hd; exact ⟨rfl, rfl⟩
  | cons hg _ ih =>
    cases hd with
    | cons hg' htl' =>
      rcases Option.some.inj (hg.symm.trans hg') with hn
      cases hn
      rcases ih htl' with ⟨h1, h2⟩
      exact ⟨by rw [h1], by rw [h2]⟩

theorem ChainV.chain_of_mem {T : Type} {h : Heap T} {p : Option Nat}
    {as : List Nat} {vs : List T} (hc : ChainV h p as vs) {a : Nat}
    (ha : a ∈ as) :
    ∃ bs ws, ChainV h (some a) (a :: bs) ws ∧ bs.length < as.length := by
  induction hc with
  | nil => cases ha
  | cons hg htl ih =>
    rcases List.mem_cons.mp ha with hb | hb
    · subst hb
      exact ⟨_, _, ChainV.cons hg htl, by simp⟩
    · rcases ih hb with ⟨bs, ws, hch, hlen⟩
      exact ⟨bs, ws, hch, Nat.lt_succ_of_lt hlen⟩

theorem ChainV.nodup {T : Type} {h : Heap T} {p : Option Nat}
    {as : List Nat} {vs : List T} (hc : ChainV h p as vs) : as.Nodup := by
  induction hc with
  | nil => exact List.nodup_nil
  | cons hg htl ih =>
    refine List.nodup_cons.mpr ⟨?_, ih⟩
    intro hmem
    rcases htl.chain_of_mem hmem with ⟨bs, ws, hch, hlen⟩
    rcases hch.deterministic (ChainV.cons hg htl) with ⟨h1, -⟩
    rcases List.cons.inj h1 with ⟨-, h2⟩
    subst h2
    exact absurd hlen (by simp)

theorem ChainV.length_le {T : Type} {h : Heap T} {p : Option Nat}
    {as : List Nat} {vs : List T} (hc : ChainV h p as vs) :
    as.length ≤ h.length := by
  have hnd := hc.nodup
  have hsub : as.toFinset ⊆ Finset.range h.length := by
    intro a ha
    exact Finset.mem_range.mpr (hc.addr_lt a (List.mem_toFinset.mp ha))
  calc as.length = as.toFinset.card := (List.toFinset_card_of_nodup hnd).symm
    _ ≤ (Finset.range h.length).card := Finset.card_le_card hsub
    _ = h.length := Finset.card_range _

theorem ChainV.congr {T : Type} {h h' : Heap T} {p : Option Nat}
    {as : List Nat} {vs : List T} (hc : ChainV h p as vs)
    (heq : ∀ a ∈ as, h'.get a = h.get a) : ChainV h' p as vs := by
  induction hc with
  | nil => exact ChainV.nil
  | cons hg htl ih =>
    exact ChainV.cons ((heq _ (by simp)).trans hg)
      (ih fun a ha => heq a (List.mem_cons_of_mem _ ha))

theorem ChainV.append_heap {T : Type} {h : Heap T} (h2 : Heap T)
    {p : Option Nat} {as : List Nat} {vs : List T} (hc : ChainV h p as vs) :
    ChainV (h ++ h2) p as vs :=
  hc.congr fun a ha => Heap.get_append h2 (hc.addr_lt a ha)

theorem ChainV.set_of_notMem {T : Type} {h : Heap T} {p : Option Nat}
    {as : List Nat} {vs : List T} {t : Nat} (n : Node T)
    (hc : ChainV h p as vs) (ht : t ∉ as) : ChainV (h.set t n) p as vs :=
  hc.congr fun a ha => Heap.get_set_ne n (fun he => ht (he ▸ ha))

theorem ChainV.getLast {T : Type} {h : Heap T} {p : Option Nat}
    {as : List Nat} {vs : List T} (hc : ChainV h p as vs) {t : Nat}
    (ht : as.getLast? = some t) :
    ∃ w, h.get t = some { value := w, next := none } ∧
      vs.getLast? = some w := by
  induction hc with
  | nil => cases ht
  | @cons a v nx as' vs' hg htl ih =>
    cases htl with
    | nil =>
      rcases Option.some.inj ht with h1
      subst h1
      exact ⟨v, hg, rfl⟩
    | @cons b w nx' bs' ws' hg' htl' =>
      have hne : (b :: bs' : List Nat) ≠ [] := by simp
      have h1 : (a :: b :: bs').getLast? = (b :: bs').getLast? := by
        rw [List.getLast?_cons_cons]
      rcases ih (h1 ▸ ht) with ⟨w0, hw, hv⟩
      refine ⟨w0, hw, ?_⟩
      rw [List.getLast?_cons_cons]
      exact hv

theorem mem_of_getLast? {T : Type} {l : List T} {a : T}
    (hl : l.getLast? = some a) : a ∈ l := by
  cases l with
  | nil => cases hl
  | cons b bs =>
    have hne : (b :: bs : List T) ≠ [] := by simp
    rw [List.getLast?_eq_getLast _ hne] at hl
    exact (Option.some.inj hl) ▸ List.getLast_mem hne

theorem ChainV.splice {T : Type} {h : Heap T} {p q : Option Nat}
    {as bs : List Nat} {vs ws : List T} {t : Nat} {w : T}
    (hc : ChainV h p as vs) (ht : as.getLast? = some t)
    (hw : h.get t = some { value := w, next := none })
    (hq : ChainV (h.set t { value := w, next := q }) q bs ws) :
    ChainV (h.set t { value := w, next := q }) p (as ++ bs) (vs ++ ws) := by
  induction hc with
  | nil => cases ht
  | @cons a v nx as' vs' hg htl ih =>
    cases htl with
    | nil =>
      have hat : a = t := by simpa [List.getLast?_singleton] using ht
      subst hat
      rcases Option.some.inj (hg.symm.trans hw) with hn
      rcases Node.mk.injEq .. ▸ hn with ⟨hv, -⟩
      subst hv
      exact ChainV.cons (Heap.get_set_self _ (Heap.get_lt hg)) hq
    | @cons b v2 nx' bs' ws' hg' htl' =>
      have ht' : (b :: bs').getLast? = some t := by
        rw [List.getLast?_cons_cons] at ht
        exact ht
      have hmem : t ∈ b :: bs' := mem_of_getLast? ht'
      have hnd : (a :: b :: bs').Nodup :=
        (ChainV.cons hg (ChainV.cons hg' htl')).nodup
      have hat : a ≠ t := by
        intro he
        exact (List.nodup_cons.mp hnd).1 (he ▸ hmem)
      have hrec := ih ht'
      exact ChainV.cons ((Heap.get_set_ne _ fun he => hat he.symm).trans hg) hrec

theorem Append_spec {T : Type} {h : Heap T} {l : LinkedList T}
    {as : List Nat} {vs : List T}
    (hc : ChainV h l.head as vs) (ht : l.tail = as.getLast?) (v : T) :
    ∃ h' l', Append h l v = some (h', l') ∧
      ChainV h' l'.head (as ++ [h.length]) (vs ++ [v]) ∧
      l'.head = (as ++ [h.length]).head? ∧
      l'.tail = some h.length ∧ l'.size = l.size + 1 ∧
      h'.length = h.length + 1 ∧
      ∀ b, b < h.length → l.tail ≠ some b → Heap.get h' b = h.get b := by
  generalize hh : l.head = p at hc
  cases hc with
  | nil =>
    refine ⟨h ++ [newNode v],
      { head := some h.length, tail := some h.length, size := l.size + 1 },
      ?_, ?_, by simp, rfl, rfl, by simp, ?_⟩
    · simp [Append, Heap.alloc, hh]
    · exact ChainV.cons (Heap.get_concat_self h (newNode v)) ChainV.nil
    · intro b hb _
      exact Heap.get_append _ hb
  | @cons a v0 nx as' vs' hg htl =>
    have hne : (a :: as' : List Nat) ≠ [] := by simp
    rw [List.getLast?_eq_getLast _ hne] at ht
    rcases (ChainV.cons hg htl).getLast
      (List.getLast?_eq_getLast _ hne) with ⟨w, hw, -⟩
    have htlt : (a :: as').getLast hne < h.length := Heap.get_lt hw
    have hfresh : (a :: as').getLast hne ≠ h.length := Nat.ne_of_lt htlt
    refine ⟨(h ++ [newNode v]).set ((a :: as').getLast hne)
        { value := w, next := some h.length },
      { head := l.head, tail := some h.length, size := l.size + 1 },
      ?_, ?_, by simp [hh], rfl, rfl, by simp [Heap.set], ?_⟩
    · simp only [Append, Heap.alloc, hh, ht]
      rw [Heap.get_append _ htlt, hw]
    · rw [hh]
      have hbase : ChainV (h ++ [newNode v]) (some a) (a :: as') (v0 :: vs') :=
        (ChainV.cons hg htl).append_heap _
      have hq : ChainV ((h ++ [newNode v]).set ((a :: as').getLast hne)
          { value := w, next := some h.length })
          (some h.length) [h.length] [v] := by
        refine ChainV.cons ?_ ChainV.nil
        rw [Heap.get_set_ne _ hfresh]
        exact Heap.get_concat_self h (newNode v)
      have hw1 : Heap.get (h ++ [newNode v]) ((a :: as').getLast hne) =
          some { value := w, next := none } := by
        rw [Heap.get_append _ htlt]
        exact hw
      exact hbase.splice (List.getLast?_eq_getLast _ hne) hw1 hq
    · intro b hb hbt
      have hbtne : (a :: as').getLast hne ≠ b := by
        intro he
        exact hbt (ht.trans (by rw [he]))
      rw [Heap.get_set_ne _ hbtne]
      exact Heap.get_append _ hb

theorem ChainV.cons_value_inv {T : Type} {h : Heap T} {p : Option Nat}
    {as : List Nat} {v : T} {vs : List T} (hc : ChainV h p as (v :: vs)) :
    ∃ a nx as', p = some a ∧ as = a :: as' ∧
      h.get a = some { value := v, next := nx } ∧ ChainV h nx as' vs := by
  cases hc with
  | cons hg htl => exact ⟨_, _, _, rfl, rfl, hg, htl⟩

theorem ChainV.nil_value_inv {T : Type} {h : Heap T} {p : Option Nat}
    {as : List Nat} (hc : ChainV h p as ([] : List T)) :
    p = none ∧ as = [] := by
  cases hc
  exact ⟨rfl, rfl⟩

theorem ChainV.some_inv {T : Type} {h : Heap T} {a : Nat} {as : List Nat}
    {vs : List T} (hc : ChainV h (some a) as vs) :
    ∃ v nx as' vs', as = a :: as' ∧ vs = v :: vs' ∧
      h.get a = some { value := v, next := nx } ∧ ChainV h nx as' vs' := by
  cases hc with
  | cons hg htl => exact ⟨_, _, _, _, rfl, rfl, hg, htl⟩

theorem appendAll_spec {T : Type} (ws : List T) :
    ∀ {h : Heap T} {l : LinkedList T} {as : List Nat} {vs : List T},
    ChainV h l.head as vs → l.tail = as.getLast? →
    ∃ h' l' as', appendAll h l ws = some (h', l') ∧
      ChainV h' l'.head (as ++ as') (vs ++ ws) ∧
      l'.tail = (as ++ as').getLast? := by
  induction ws with
  | nil =>
    intro h l as vs hc ht
    exact ⟨h, l, [], rfl, by simpa using hc, by simpa using ht⟩
  | cons w ws ih =>
    intro h l as vs hc ht
    rcases Append_spec hc ht w with ⟨h1, l1, heq, hc1, -, ht1, -, -, -⟩
    have ht1' : l1.tail = (as ++ [h.length]).getLast? := by
      rw [ht1, List.getLast?_concat]
    rcases ih hc1 ht1' with ⟨h', l', as', heq', hc', ht'⟩
    refine ⟨h', l', [h.length] ++ as', ?_, ?_, ?_⟩
    · simp only [appendAll, heq]
      exact heq'
    · simpa [List.append_assoc] using hc'
    · simpa [List.append_assoc] using ht'

theorem stringLoop_spec {T : Type} [ToString T] {h : Heap T}
    {p : Option Nat} {as : List Nat} {vs : List T} (hc : ChainV h p as vs) :
    ∀ (fuel : Nat), as.length ≤ fuel → ∀ acc,
    stringLoop h fuel p acc = some (acc ++ renderInner vs) := by
  induction hc with
  | nil =>
    intro fuel _ acc
    cases fuel <;> simp [stringLoop, renderInner]
  | @cons a v nx as' vs' hg htl ih =>
    intro fuel hfuel acc
    cases fuel with
    | zero => simp at hfuel
    | succ f =>
      cases htl with
      | nil =>
        simp [stringLoop, hg, renderInner]
      | @cons b v2 nx' bs' ws' hg' htl' =>
        have hf : (b :: bs').length ≤ f := by
          simpa using Nat.lt_succ.mp (Nat.lt_of_lt_of_le (by simp) hfuel)
        simp only [stringLoop, hg, Option.isSome_some, if_pos, if_true]
        rw [ih f hf]
        simp [renderInner, String.append_assoc]

theorem String'_spec {T : Type} [ToString T] {h : Heap T} {l : LinkedList T}
    {as : List Nat} {vs : List T} (hc : ChainV h l.head as vs) :
    String' h l = some (renderSpec vs) := by
  generalize hh : l.head = p at hc
  have hlen : as.length ≤ h.length + 1 :=
    Nat.le_succ_of_le hc.length_le
  cases hc with
  | nil => simp [String', hh, renderSpec, renderInner]
  | @cons a v nx as' vs' hg htl =>
    have hrun := stringLoop_spec (ChainV.cons hg htl) (h.length + 1) hlen "["
    simp only [String', hh, hrun]
    rfl

theorem getLoop_pos {T : Type} {h : Heap T} {p : Option Nat}
    {as : List Nat} {vs : List T} (hc : ChainV h p as vs) :
    ∀ (i : Nat), i < as.length → ∀ (fuel : Nat), i < fuel →
    ∃ a n, getLoop h fuel p (i : Int) = some (some a) ∧
      as.get? i = some a ∧ h.get a = some n ∧ vs.get? i = some n.value := by
  induction hc with
  | nil => intro i hi; simp at hi
  | @cons a v nx as' vs' hg htl ih =>
    intro i hi fuel hfuel
    cases fuel with
    | zero => cases hfuel
    | succ f =>
      cases i with
      | zero =>
        refine ⟨a, _, ?_, rfl, hg, rfl⟩
        simp [getLoop]
      | succ j =>
        have hj : j < as'.length := by simpa using hi
        have hcast : ((j + 1 : Nat) : Int) - 1 = (j : Nat) := by push_cast; ring
        have hpos : ((j + 1 : Nat) : Int) > 0 := by positivity
        rcases ih j hj f (Nat.lt_succ.mp hfuel) with ⟨b, n, hrun, hb, hn, hv⟩
        refine ⟨b, n, ?_, by simpa using hb, hn, by simpa using hv⟩
        simp only [getLoop, hpos, if_true, hg, hcast]
        exact hrun

theorem getLoop_off {T : Type} {h : Heap T} {p : Option Nat}
    {as : List Nat} {vs : List T} (hc : ChainV h p as vs) :
    ∀ (i : Int), (as.length : Int) ≤ i → ∀ (fuel : Nat), as.length ≤ fuel →
    getLoop h fuel p i = some none := by
  induction hc with
  | nil =>
    intro i _ fuel _
    cases fuel <;> rfl
  | @cons a v nx as' vs' hg htl ih =>
    intro i hi fuel hfuel
    have hpos : i > 0 := by
      have : ((as'.length + 1 : Nat) : Int) ≤ i := by simpa using hi
      omega
    cases fuel with
    | zero => simp at hfuel
    | succ f =>
      have hi' : (as'.length : Int) ≤ i - 1 := by
        have : ((as'.length + 1 : Nat) : Int) ≤ i := by simpa using hi
        push_cast at this ⊢
        omega
      simp only [getLoop, hpos, if_true, hg]
      exact ih (i - 1) hi' f (by simp at hfuel; omega)

theorem insertAtLoop_off {T : Type} {h : Heap T} {p : Option Nat}
    {as : List Nat} {vs : List T} (hc : ChainV h p as vs) :
    ∀ (position size : Int), (vs.length : Int) + 1 ≤ position →
    ∀ (fuel : Nat), vs.length ≤ fuel →
    insertAtLoop h fuel p position size =
      some (none, position - vs.length, size + vs.length) := by
  induction hc with
  | nil =>
    intro position size _ fuel _
    cases fuel <;> simp [insertAtLoop]
  | @cons a v nx as' vs' hg htl ih =>
    intro position size hpos fuel hfuel
    have hgt : position > 1 := by
      have : ((vs'.length + 1 : Nat) : Int) + 1 ≤ position := by simpa using hpos
      push_cast at this
      omega
    cases fuel with
    | zero => simp at hfuel
    | succ f =>
      have hpos' : (vs'.length : Int) + 1 ≤ position - 1 := by
        have : ((vs'.length + 1 : Nat) : Int) + 1 ≤ position := by simpa using hpos
        push_cast at this ⊢
        omega
      have hrun := ih (position - 1) (size + 1) hpos' f (by simp at hfuel; omega)
      simp only [insertAtLoop, hgt, if_true, hg]
      rw [hrun]
      simp only [Option.some.injEq, Prod.mk.injEq, true_and]
      constructor <;> (simp only [List.length_cons]; push_cast; ring)

theorem removeLoop_total {T : Type} [DecidableEq T] {h : Heap T} {value : T}
    {nx : Option Nat} {as : List Nat} {vs : List T}
    (hc : ChainV h nx as vs) :
    ∀ (a : Nat) (w : T), h.get a = some { value := w, next := nx } →
    ∀ (fuel : Nat), as.length < fuel →
    ∃ out, removeLoop h value fuel a = some out := by
  induction hc with
  | nil =>
    intro a w hga fuel hfuel
    cases fuel with
    | zero => cases hfuel
    | succ f => exact ⟨(h, false), by simp [removeLoop, hga]⟩
  | @cons b v2 nx' bs' ws' hgb htl ih =>
    intro a w hga fuel hfuel
    cases fuel with
    | zero => cases hfuel
    | succ f =>
      by_cases hv : v2 = value
      · refine ⟨(h.set a { value := w, next := nx' }, true), ?_⟩
        simp [removeLoop, hga, hgb, hv]
      · rcases ih b v2 hgb f (by simp at hfuel; omega) with ⟨out, hout⟩
        exact ⟨out, by simp only [removeLoop, hga, hgb, if_neg hv]; exact hout⟩

theorem removeLoop_last {T : Type} [DecidableEq T] (v : T) :
    ∀ (ys : List T) {h : Heap T} (a : Nat) (w : T) (nx : Option Nat)
      (bs : List Nat),
    h.get a = some { value := w, next := nx } → ChainV h nx bs (ys ++ [v]) →
    v ∉ ys → a ∉ bs → ∀ (fuel : Nat), bs.length ≤ fuel →
    ∃ h', removeLoop h v fuel a = some (h', true) ∧
      ChainV h' (some a) (a :: bs.dropLast) (w :: ys) ∧
      h'.length = h.length ∧
      ∀ c, c ≠ a → c ∉ bs → Heap.get h' c = h.get c := by
  intro ys
  induction ys with
  | nil =>
    intro h a w nx bs hga hch hvy hab fuel hfuel
    rw [List.nil_append] at hch
    rcases hch.cons_value_inv with ⟨b, nx2, bs2, hnx, hbs, hgb, htl⟩
    rcases htl.nil_value_inv with ⟨hnx2, hbs2⟩
    subst hnx hbs hnx2 hbs2
    cases fuel with
    | zero => simp at hfuel
    | succ f =>
      refine ⟨h.set a { value := w, next := none }, ?_, ?_, ?_, ?_⟩
      · simp [removeLoop, hga, hgb]
      · simpa using ChainV.cons (Heap.get_set_self _ (Heap.get_lt hga))
          ChainV.nil
      · exact Heap.length_set h a _
      · intro c hca _
        exact Heap.get_set_ne _ fun he => hca he.symm
  | cons y ys' ih =>
    intro h a w nx bs hga hch hvy hab fuel hfuel
    rw [List.cons_append] at hch
    rcases hch.cons_value_inv with ⟨b, nx', bs', hnx, hbs, hgb, htl⟩
    subst hnx hbs
    have hbs' : bs' ≠ [] := by
      have hle : bs'.length = ys'.length + 1 := by simpa using htl.length_eq
      intro he
      rw [he] at hle
      simp at hle
    cases fuel with
    | zero => simp at hfuel
    | succ f =>
      have hyv : y ≠ v := by
        intro he
        exact hvy (by rw [← he]; exact List.mem_cons_self y ys')
      have hbnb : b ∉ bs' := (List.nodup_cons.mp (ChainV.cons hgb htl).nodup).1
      rcases ih b y nx' bs' hgb htl (fun hm => hvy (List.mem_cons_of_mem _ hm))
        hbnb f (by simp at hfuel; omega) with ⟨h', hrun, hch', hlen, hframe⟩
      have hane : a ≠ b := fun he => hab (he ▸ List.mem_cons_self b bs')
      have hanb : a ∉ bs' := fun hm => hab (List.mem_cons_of_mem _ hm)
      refine ⟨h', ?_, ?_, hlen, ?_⟩
      · simp only [removeLoop, hga, hgb, if_neg hyv]
        exact hrun
      · have hga' : Heap.get h' a = some { value := w, next := some b } :=
          (hframe a hane hanb).trans hga
        have hfull := ChainV.cons hga' hch'
        rwa [List.dropLast_cons_of_ne_nil hbs']
      · intro c hca hcb
        exact hframe c (fun he => hcb (he ▸ List.mem_cons_self b bs'))
          (fun hm => hcb (List.mem_cons_of_mem _ hm))

theorem searchLoop_found {T : Type} [DecidableEq T] {h : Heap T} {target : T}
    {p : Option Nat} {as : List Nat} {vs : List T} (hc : ChainV h p as vs) :
    ∀ (i : Nat), vs.get? i = some target →
    (∀ j, j < i → vs.get? j ≠ some target) →
    ∀ (pos : Int) (fuel : Nat), i < fuel →
    searchLoop h target fuel p pos = some (pos + i) := by
  induction hc with
  | nil => intro i hi; simp [List.get?] at hi
  | @cons a v nx as' vs' hg htl ih =>
    intro i hi hfirst pos fuel hfuel
    cases fuel with
    | zero => cases hfuel
    | succ f =>
      cases i with
      | zero =>
        have hv : v = target := by simpa using hi
        simp [searchLoop, hg, hv]
      | succ j =>
        have hvne : v ≠ target := by
          have := hfirst 0 (Nat.succ_pos j)
          simpa using this
        have hrun := ih j (by simpa using hi)
          (fun j' hj' => by simpa using hfirst (j' + 1) (by omega))
          (pos + 1) f (Nat.lt_succ.mp hfuel)
        simp only [searchLoop, hg, if_neg hvne, hrun]
        congr 1
        push_cast
        ring

theorem searchLoop_absent {T : Type} [DecidableEq T] {h : Heap T}
    {target : T} {p : Option Nat} {as : List Nat} {vs : List T}
    (hc : ChainV h p as vs) :
    target ∉ vs → ∀ (pos : Int) (fuel : Nat), as.length ≤ fuel →
    searchLoop h target fuel p pos = some (-1) := by
  induction hc with
  | nil =>
    intro _ pos fuel _
    cases fuel <;> rfl
  | @cons a v nx as' vs' hg htl ih =>
    intro hnot pos fuel hfuel
    cases fuel with
    | zero => simp at hfuel
    | succ f =>
      have hvne : ¬ v = target := by
        intro he
        exact hnot (by rw [← he]; exact List.mem_cons_self v vs')
      simp only [searchLoop, hg, if_neg hvne]
      exact ih (fun hm => hnot (List.mem_cons_of_mem _ hm)) (pos + 1) f
        (by simp at hfuel; omega)

theorem Append_resInv {T : Type} {B : Nat} {h : Heap T} {res : LinkedList T}
    {ras : List Nat} {rvs : List T} (hr : ResInv B h res ras rvs) (v : T) :
    ∃ h' res', Append h res v = some (h', res') ∧
      ResInv B h' res' (ras ++ [h.length]) (rvs ++ [v]) ∧
      h.length < h'.length ∧
      ∀ b, b < B → Heap.get h' b = h.get b := by
  obtain ⟨hc, ht, hb, hBle⟩ := hr
  rcases Append_spec hc ht v with ⟨h', res', heq, hc', -, ht', -, hlen, hframe⟩
  refine ⟨h', res', heq, ⟨hc', by rw [ht', List.getLast?_concat], ?_, by omega⟩,
    by omega, ?_⟩
  · intro b hbmem
    rcases List.mem_append.mp hbmem with hm | hm
    · exact hb b hm
    · simp at hm
      omega
  · intro b hbB
    refine hframe b (by omega) ?_
    rw [ht]
    cases hras : ras.getLast? with
    | none => simp
    | some t =>
      have htB : B ≤ t := hb t (mem_of_getLast? hras)
      intro he
      rcases Option.some.inj he with h1
      omega

theorem appendRest_spec {T : Type} :
    ∀ (vs : List T) {as : List Nat} {p : Option Nat} {B : Nat} {h : Heap T}
      {res : LinkedList T} {ras : List Nat} {rvs : List T},
    ChainV h p as vs → (∀ b ∈ as, b < B) → ResInv B h res ras rvs →
    ∀ (fuel : Nat), as.length ≤ fuel →
    ∃ h' res' ras', appendRest h fuel p res = some (h', res') ∧
      ResInv B h' res' (ras ++ ras') (rvs ++ vs) ∧
      h.length ≤ h'.length ∧
      ∀ b, b < B → Heap.get h' b = h.get b := by
  intro vs
  induction vs with
  | nil =>
    intro as p B h res ras rvs hc hlt hr fuel hfuel
    rcases hc.nil_value_inv with ⟨hp, has⟩
    subst hp
    refine ⟨h, res, [], ?_, by simpa using hr, le_refl _, fun b _ => rfl⟩
    cases fuel <;> rfl
  | cons v vs' ih =>
    intro as p B h res ras rvs hc hlt hr fuel hfuel
    rcases hc.cons_value_inv with ⟨a, nx, as', hp, has, hga, htl⟩
    subst hp has
    cases fuel with
    | zero => simp at hfuel
    | succ f =>
      rcases Append_resInv hr v with ⟨h1, r1, happ, hr1, hlen1, hframe1⟩
      have haB : a < B := hlt a (List.mem_cons_self a as')
      have hga1 : Heap.get h1 a = some { value := v, next := nx } :=
        (hframe1 a haB).trans hga
      have htl1 : ChainV h1 nx as' vs' :=
        htl.congr fun b hb => hframe1 b (hlt b (List.mem_cons_of_mem _ hb))
      rcases ih htl1 (fun b hb => hlt b (List.mem_cons_of_mem _ hb)) hr1 f
        (by simp at hfuel; omega) with ⟨h', res', ras', hrun, hr', hlen', hframe'⟩
      rw [List.append_assoc, List.append_assoc, List.singleton_append] at hr'
      refine ⟨h', res', [h.length] ++ ras', ?_, hr', by omega, ?_⟩
      · simp only [appendRest, hga, happ, hga1]
        exact hrun
      · intro b hb
        exact (hframe' b hb).trans (hframe1 b hb)

theorem intercalarLoop_spec {T : Type} :
    ∀ (vs1 vs2 : List T) {as1 as2 : List Nat} {c1 c2 : Option Nat} {B : Nat}
      {h : Heap T} {res : LinkedList T} {ras : List Nat} {rvs : List T},
    ChainV h c1 as1 vs1 → ChainV h c2 as2 vs2 →
    (∀ b ∈ as1, b < B) → (∀ b ∈ as2, b < B) → ResInv B h res ras rvs →
    ∀ (fuel : Nat), min vs1.length vs2.length ≤ fuel →
    ∃ h' res' ras' c1' c2' as1' vs1' as2' vs2' pref,
      intercalarLoop h fuel c1 c2 res = some (h', res', c1', c2') ∧
      ResInv B h' res' (ras ++ ras') (rvs ++ pref) ∧
      ChainV h' c1' as1' vs1' ∧ ChainV h' c2' as2' vs2' ∧
      (∀ b ∈ as1', b < B) ∧ (∀ b ∈ as2', b < B) ∧
      (vs1' = [] ∨ vs2' = []) ∧
      pref ++ (vs1' ++ vs2') = interleaveSpec vs1 vs2 ∧
      vs1'.length ≤ vs1.length ∧ vs2'.length ≤ vs2.length ∧
      h.length ≤ h'.length ∧
      ∀ b, b < B → Heap.get h' b = h.get b := by
  intro vs1
  induction vs1 with
  | nil =>
    intro vs2 as1 as2 c1 c2 B h res ras rvs hc1 hc2 hb1 hb2 hr fuel _
    rcases hc1.nil_value_inv with ⟨hp1, has1⟩
    subst hp1
    refine ⟨h, res, [], none, c2, [], [], as2, vs2, [], ?_, by simpa using hr,
      ChainV.nil, hc2, by simp, hb2, Or.inl rfl, by simp [interleaveSpec],
      by simp, le_refl _, le_refl _, fun b _ => rfl⟩
    cases fuel <;> rfl
  | cons x xs ih =>
    intro vs2 as1 as2 c1 c2 B h res ras rvs hc1 hc2 hb1 hb2 hr fuel hfuel
    rcases hc1.cons_value_inv with ⟨a1, nx1, as1', hp1, has1, hga1, htl1⟩
    subst hp1 has1
    cases vs2 with
    | nil =>
      rcases hc2.nil_value_inv with ⟨hp2, has2⟩
      subst hp2
      refine ⟨h, res, [], some a1, none, a1 :: as1', x :: xs, [], [], [], ?_,
        by simpa using hr, ChainV.cons hga1 htl1, ChainV.nil, hb1, by simp,
        Or.inr rfl, by simp [interleaveSpec], le_refl _, by simp, le_refl _,
        fun b _ => rfl⟩
      cases fuel <;> rfl
    | cons y ys =>
      rcases hc2.cons_value_inv with ⟨a2, nx2, as2', hp2, has2, hga2, htl2⟩
      subst hp2 has2
      cases fuel with
      | zero => simp at hfuel
      | succ f =>
        rcases Append_resInv hr x with ⟨h1, r1, happ1, hr1, hlen1, hframe1⟩
        have ha1B : a1 < B := hb1 a1 (List.mem_cons_self a1 as1')
        have ha2B : a2 < B := hb2 a2 (List.mem_cons_self a2 as2')
        have hga2' : Heap.get h1 a2 = some { value := y, next := nx2 } :=
          (hframe1 a2 ha2B).trans hga2
        rcases Append_resInv hr1 y with ⟨h2, r2, happ2, hr2, hlen2, hframe2⟩
        have hga1'' : Heap.get h2 a1 = some { value := x, next := nx1 } :=
          ((hframe2 a1 ha1B).trans (hframe1 a1 ha1B)).trans hga1
        have hga2'' : Heap.get h2 a2 = some { value := y, next := nx2 } :=
          (hframe2 a2 ha2B).trans hga2'
        have hframe12 : ∀ b, b < B → Heap.get h2 b = h.get b := fun b hb =>
          (hframe2 b hb).trans (hframe1 b hb)
        have htl1' : ChainV h2 nx1 as1' xs :=
          htl1.congr fun b hb => hframe12 b (hb1 b (List.mem_cons_of_mem _ hb))
        have htl2' : ChainV h2 nx2 as2' ys :=
          htl2.congr fun b hb => hframe12 b (hb2 b (List.mem_cons_of_mem _ hb))
        rcases ih ys htl1' htl2'
          (fun b hb => hb1 b (List.mem_cons_of_mem _ hb))
          (fun b hb => hb2 b (List.mem_cons_of_mem _ hb)) hr2 f
          (by simp at hfuel; omega) with
          ⟨h', res', ras'', c1', c2', as1'', vs1'', as2'', vs2'', pref'',
            hrun, hr', hch1', hch2', hb1', hb2', hor, hglue, hle1, hle2,
            hlen', hframe'⟩
        rw [List.append_assoc, List.append_assoc, List.singleton_append,
          List.singleton_append] at hr'
        rw [List.append_assoc, List.append_assoc, List.singleton_append,
          List.singleton_append] at hr'
        refine ⟨h', res', [h.length] ++ [h1.length] ++ ras'', c1', c2',
          as1'', vs1'', as2'', vs2'', x :: y :: pref'', ?_, ?_, hch1', hch2',
          hb1', hb2', hor, ?_, by simpa using Nat.le_succ_of_le hle1,
          by simpa using Nat.le_succ_of_le hle2, by omega, ?_⟩
        · simp only [intercalarLoop, hga1, happ1, hga2', happ2, hga1'',
            hga2'']
          exact hrun
        · simpa [List.append_assoc] using hr'
        · simp only [interleaveSpec, List.cons_append, ← hglue]
        · intro b hb
          exact (hframe' b hb).trans (hframe12 b hb)

/-- C3: claimed invariant — after every sequence of public operations the
tail invariants hold (`head = none` iff no nodes iff `tail = none`, and
`tail` references the last chain node).  The code violates it: on a fresh
list, `Append 1` then `Remove 1` leaves `head = none` while `tail` still
points at the removed node (address 0), so this theorem evaluates the code
at that failing input. -/
theorem remove_tail_dangling_bug :
    Append ([] : Heap Nat) (NewLinkedList Nat) 1 =
      some ([{ value := 1, next := none }],
        { head := some 0, tail := some 0, size := 1 }) ∧
    Remove ([{ value := 1, next := none }] : Heap Nat)
        { head := some 0, tail := some 0, size := 1 } 1 =
      some ([{ value := 1, next := none }],
        { head := none, tail := some 0, size := 0 }) ∧
    ({ head := none, tail := some 0, size := 0 } : LinkedList Nat).head =
      none ∧
    ({ head := none, tail := some 0, size := 0 } : LinkedList Nat).tail ≠
      none :=
  ⟨rfl, rfl, rfl, by simp⟩

/-- C1 counterexample: on the non-empty list `[7]` with negative position
`-1`, `Get` does not fail with `InvalidPosition`; it returns the head value
`7` with no error. -/
theorem get_negative_counterexample :
    Get ([{ value := 7, next := none }] : Heap Nat)
        { head := some 0, tail := some 0, size := 1 } (-1) =
      some (Except.ok 7) ∧
    (Except.ok 7 : Except String Nat) ≠ Except.error "posición inválida" :=
  ⟨rfl, by simp⟩

/-- C1 (amended): for every non-empty list and every negative position,
`Get` raises no error and returns the value stored at the head node (the
walk guard `position > 0` is immediately false, so a negative position
behaves like position 0). -/
theorem get_negative_returns_head {T : Type} {h : Heap T}
    {l : LinkedList T} {a : Nat} {n : Node T} (hh : l.head = some a)
    (hn : Heap.get h a = some n) (p : Int) (hp : p < 0) :
    Get h l p = some (Except.ok n.value) := by
  have htn : p.toNat = 0 := Int.toNat_of_nonpos (le_of_lt hp)
  have hnp : ¬ p > 0 := by omega
  simp [Get, hh, htn, getLoop, hnp, hn]

/-- C1 witness: the amended statement at the list `[7]` and position `-5`. -/
theorem get_negative_returns_head_witness :
    Get ([{ value := 7, next := none }] : Heap Nat)
        { head := some 0, tail := some 0, size := 1 } (-5) =
      some (Except.ok 7) :=
  @get_negative_returns_head Nat [{ value := 7, next := none }]
    { head := some 0, tail := some 0, size := 1 } 0 { value := 7, next := none }
    rfl rfl (-5) (by decide)

/-- C4 counterexample: `InsertAt 9 5` on the one-element list `[1]` is not
mutation-free — the chain, head and tail are unchanged but the cached
`size` field is incremented by the walk loop (from 1 to 2), and a garbage
node is allocated. -/
theorem insertAt_size_mutation_counterexample :
    InsertAt ([{ value := 1, next := none }] : Heap Nat)
        { head := some 0, tail := some 0, size := 1 } 9 5 =
      some ([{ value := 1, next := none }, { value := 9, next := none }],
        { head := some 0, tail := some 0, size := 2 }) ∧
    ({ head := some 0, tail := some 0, size := 2 } : LinkedList Nat).size ≠
      ({ head := some 0, tail := some 0, size := 1 } : LinkedList Nat).size :=
  ⟨rfl, by decide⟩

/-- C4 (amended): `InsertAt` with a negative position is a complete no-op
(no error, no allocation, no field change); with a position strictly beyond
the chain's end it raises no error and leaves chain, head and tail
unchanged, but allocates one garbage node and increments the cached `size`
field once per node of the chain. -/
theorem insertAt_invalid_position_effect {T : Type} {h : Heap T}
    {l : LinkedList T} {as : List Nat} {vs : List T}
    (hc : ChainV h l.head as vs) :
    (∀ (v : T) (p : Int), p < 0 → InsertAt h l v p = some (h, l)) ∧
    (∀ (v : T) (p : Int), (vs.length : Int) + 1 ≤ p →
      InsertAt h l v p = some (h ++ [newNode v],
        { l with size := l.size + vs.length })) := by
  constructor
  · intro v p hp
    simp [InsertAt, hp]
  · intro v p hp
    have hlnn : (0:Int) ≤ (vs.length : Int) := by positivity
    have hp0 : ¬ p < 0 := by omega
    have hpne : ¬ p = 0 := by omega
    have hc1 : ChainV (h ++ [newNode v]) l.head as vs := hc.append_heap _
    have hrun := insertAtLoop_off hc1 p l.size hp p.toNat (by omega)
    simp only [InsertAt, if_neg hp0, if_neg hpne, Heap.alloc, hrun]

/-- C4 witness: the amended statement on the list `[1]` at positions `-3`
and `5`. -/
theorem insertAt_invalid_position_effect_witness :
    InsertAt ([{ value := 1, next := none }] : Heap Nat)
        { head := some 0, tail := some 0, size := 1 } 9 (-3) =
      some ([{ value := 1, next := none }],
        { head := some 0, tail := some 0, size := 1 }) ∧
    InsertAt ([{ value := 1, next := none }] : Heap Nat)
        { head := some 0, tail := some 0, size := 1 } 9 5 =
      some ([{ value := 1, next := none }, { value := 9, next := none }],
        { head := some 0, tail := some 0, size := 2 }) := by
  have hs := @insertAt_invalid_position_effect Nat
    [{ value := 1, next := none }] { head := some 0, tail := some 0, size := 1 }
    [0] [1] (ChainV.cons rfl ChainV.nil)
  exact ⟨hs.1 9 (-3) (by decide), by simpa [newNode] using hs.2 9 5 (by decide)⟩

/-- C2 counterexample: `ConcatenarListas` called with an absent (`nil`)
first list dereferences the nil pointer and crashes (`none` models the
panic), so not every non-`get` operation resolves invalid input without a
raised failure. -/
theorem concat_absent_list_crash_counterexample :
    ConcatenarListas ([] : Heap Nat) (NewLinkedList Nat) none
      (some (NewLinkedList Nat)) = none :=
  rfl

/-- C2 (amended): for the non-`get` operations, invalid input resolves via
silent no-ops or sentinel returns — `InsertAt` with a negative or
out-of-range position completes without failure, `Remove` of any (possibly
absent) value completes without failure, `Search` of an absent value
returns the `-1` sentinel, and `IntercalarListas` returns the `nil`
sentinel for absent inputs — except that `ConcatenarListas` dereferences an
absent list argument and crashes (`none`). -/
theorem invalid_input_resolution {T : Type} [DecidableEq T] {h : Heap T}
    {l : LinkedList T} {as : List Nat} {vs : List T}
    (hc : ChainV h l.head as vs) :
    (∀ (v : T) (p : Int), p < 0 → InsertAt h l v p = some (h, l)) ∧
    (∀ (v : T) (p : Int), (vs.length : Int) + 1 ≤ p →
      ∃ out, InsertAt h l v p = some out) ∧
    (∀ value : T, ∃ out, Remove h l value = some out) ∧
    (∀ value : T, value ∉ vs → Search h l value = some (-1)) ∧
    (∀ (recv : LinkedList T) (l2 : Option (LinkedList T)),
      IntercalarListas h recv none l2 = some (h, recv, none)) ∧
    (∀ (recv L1 : LinkedList T),
      IntercalarListas h recv (some L1) none = some (h, recv, none)) ∧
    (∀ (recv : LinkedList T) (l2 : Option (LinkedList T)),
      ConcatenarListas h recv none l2 = none) ∧
    (∀ (recv L1 : LinkedList T), L1.head ≠ none →
      ConcatenarListas h recv (some L1) none = none) := by
  refine ⟨?_, ?_, ?_, ?_, fun recv l2 => rfl, fun recv L1 => rfl,
    fun recv l2 => rfl, ?_⟩
  · intro v p hp
    simp [InsertAt, hp]
  · intro v p hp
    have hlnn : (0:Int) ≤ (vs.length : Int) := by positivity
    have hp0 : ¬ p < 0 := by omega
    have hpne : ¬ p = 0 := by omega
    have hc1 : ChainV (h ++ [newNode v]) l.head as vs := hc.append_heap _
    have hrun := insertAtLoop_off hc1 p l.size hp p.toNat (by omega)
    refine ⟨(h ++ [newNode v], { l with size := l.size + vs.length }), ?_⟩
    simp only [InsertAt, if_neg hp0, if_neg hpne, Heap.alloc, hrun]
  · intro value
    generalize hh : l.head = p at hc
    cases hc with
    | nil => exact ⟨(h, l), by simp [Remove, hh]⟩
    | @cons a v0 nx as' vs' hg htl =>
      by_cases hv : v0 = value
      · refine ⟨(h, { l with head := nx, size := l.size - 1 }), ?_⟩
        simp [Remove, hh, hg, hv]
      · rcases @removeLoop_total T _ h value nx as' vs' htl a v0 hg
          (h.length + 1)
          (by have := (ChainV.cons hg htl).length_le; simp at this; omega)
          with ⟨⟨h1, removed⟩, hout⟩
        refine ⟨(h1, { l with size :=
          if removed then l.size - 1 else l.size }), ?_⟩
        simp only [Remove, hh, hg, if_neg hv, hout]
  · intro value hvnot
    generalize hh : l.head = p0 at hc
    cases hc with
    | nil => simp [Search, hh]
    | @cons a v0 nx as' vs' hg htl =>
      have hrun := searchLoop_absent (ChainV.cons hg htl) hvnot 0
        (h.length + 1) (Nat.le_succ_of_le (ChainV.cons hg htl).length_le)
      simp only [Search, hh, hrun]
  · intro recv L1 hL1
    cases hh1 : L1.head with
    | none => exact absurd hh1 hL1
    | some a1 => simp [ConcatenarListas, hh1]

/-- C2 witness: the amended statement on the list `[1]`, with position
`-2`, out-of-range position `7`, removal of the absent value `5`, search
for the absent value `5`, and the `nil`-input cases of the combination
operations. -/
theorem invalid_input_resolution_witness :
    InsertAt ([{ value := 1, next := none }] : Heap Nat)
        { head := some 0, tail := some 0, size := 1 } 9 (-2) =
      some ([{ value := 1, next := none }],
        { head := some 0, tail := some 0, size := 1 }) ∧
    (∃ out, InsertAt ([{ value := 1, next := none }] : Heap Nat)
        { head := some 0, tail := some 0, size := 1 } 9 7 = some out) ∧
    (∃ out, Remove ([{ value := 1, next := none }] : Heap Nat)
        { head := some 0, tail := some 0, size := 1 } 5 = some out) ∧
    Search ([{ value := 1, next := none }] : Heap Nat)
        { head := some 0, tail := some 0, size := 1 } 5 = some (-1) ∧
    IntercalarListas ([{ value := 1, next := none }] : Heap Nat)
        (NewLinkedList Nat) none (some (NewLinkedList Nat)) =
      some ([{ value := 1, next := none }], NewLinkedList Nat, none) ∧
    ConcatenarListas ([{ value := 1, next := none }] : Heap Nat)
        (NewLinkedList Nat) none (some (NewLinkedList Nat)) = none := by
  have hs := @invalid_input_resolution Nat _
    [{ value := 1, next := none }] { head := some 0, tail := some 0, size := 1 }
    [0] [1] (ChainV.cons rfl ChainV.nil)
  exact ⟨hs.1 9 (-2) (by decide), hs.2.1 9 7 (by decide), hs.2.2.1 5,
    hs.2.2.2.1 5 (by decide),
    hs.2.2.2.2.1 (NewLinkedList Nat) (some (NewLinkedList Nat)),
    hs.2.2.2.2.2.2.1 (NewLinkedList Nat) (some (NewLinkedList Nat))⟩

/-- C5 counterexample: on the list `[1 2]`, appending `1` and then removing
`1` does not restore the rendered string — `Remove` deletes the first
occurrence (the head), leaving `[2 1]` instead of `[1 2]`. -/
theorem append_remove_counterexample :
    String' ([{ value := 1, next := some 1 }, { value := 2, next := none }] :
        Heap Nat) { head := some 0, tail := some 1, size := 2 } =
      some "[1 2]" ∧
    Append ([{ value := 1, next := some 1 }, { value := 2, next := none }] :
        Heap Nat) { head := some 0, tail := some 1, size := 2 } 1 =
      some ([{ value := 1, next := some 1 }, { value := 2, next := some 2 },
        { value := 1, next := none }],
        { head := some 0, tail := some 2, size := 3 }) ∧
    Remove ([{ value := 1, next := some 1 }, { value := 2, next := some 2 },
        { value := 1, next := none }] : Heap Nat)
        { head := some 0, tail := some 2, size := 3 } 1 =
      some ([{ value := 1, next := some 1 }, { value := 2, next := some 2 },
        { value := 1, next := none }],
        { head := some 1, tail := some 2, size := 2 }) ∧
    String' ([{ value := 1, next := some 1 }, { value := 2, next := some 2 },
        { value := 1, next := none }] : Heap Nat)
        { head := some 1, tail := some 2, size := 2 } = some "[2 1]" ∧
    "[2 1]" ≠ "[1 2]" :=
  ⟨rfl, rfl, rfl, rfl, by decide⟩

/-- C5 (amended): for every well-formed list and every value `v` that does
not already occur in it, `Append v` followed by `Remove v` restores the
rendered string. -/
theorem append_remove_roundtrip {T : Type} [DecidableEq T] [ToString T]
    {h : Heap T} {l : LinkedList T} {as : List Nat} {vs : List T}
    (hc : ChainV h l.head as vs) (ht : l.tail = as.getLast?)
    (v : T) (hv : v ∉ vs) :
    ∃ h1 l1 h2 l2, Append h l v = some (h1, l1) ∧
      Remove h1 l1 v = some (h2, l2) ∧
      String' h2 l2 = String' h l := by
  rcases Append_spec hc ht v with ⟨h1, l1, happ, hc1, hhd1, ht1, -, hlen1, -⟩
  have hstr : String' h l = some (renderSpec vs) := String'_spec hc
  cases vs with
  | nil =>
    rcases hc.nil_value_inv with ⟨hp, has⟩
    subst has
    simp only [List.nil_append] at hc1
    rcases hc1.cons_value_inv with ⟨b, nxb, bs, hp1, hbs, hgb, htlb⟩
    rcases htlb.nil_value_inv with ⟨hnxb, hbsnil⟩
    subst hnxb hbsnil
    refine ⟨h1, l1, h1, { l1 with head := none, size := l1.size - 1 },
      happ, ?_, ?_⟩
    · simp [Remove, hp1, hgb]
    · have hl2 : String' h1 { l1 with head := none, size := l1.size - 1 } =
          some "[]" := by simp [String']
      rw [hl2, hstr]
      have : renderSpec ([] : List T) = "[]" := by
        simp [renderSpec, renderInner]
      rw [this]
  | cons w ws =>
    rcases hc.cons_value_inv with ⟨a, nx0, as0, hp, has, hga, htl0⟩
    subst has
    simp only [List.cons_append] at hc1
    rcases hc1.cons_value_inv with ⟨a', nx1, bs, hp1, hbs, hga1, htl1⟩
    rcases List.cons.inj hbs with ⟨ha', hbs'⟩
    subst ha' hbs'
    have hwv : ¬ w = v := by
      intro he
      subst he
      exact hv (List.mem_cons_self w ws)
    have hanb : a ∉ as0 ++ [h.length] := (List.nodup_cons.mp hc1.nodup).1
    have hfuel : (as0 ++ [h.length]).length ≤ h1.length + 1 := by
      have h1le := hc.length_le
      rw [hlen1]
      simp only [List.length_append, List.length_cons, List.length_singleton,
        List.length_nil] at h1le ⊢
      omega
    rcases removeLoop_last v ws a w nx1 (as0 ++ [h.length]) hga1 htl1
      (fun hm => hv (List.mem_cons_of_mem _ hm)) hanb (h1.length + 1) hfuel
      with ⟨h2, hrun, hch2, hlen2, -⟩
    rw [List.dropLast_concat] at hch2
    refine ⟨h1, l1, h2,
      { head := some a, tail := l1.tail, size := l1.size - 1 }, happ, ?_, ?_⟩
    · simp [Remove, hp1, hga1, if_neg hwv, hrun]
    · have hch2' : ChainV h2
          ({ head := some a, tail := l1.tail, size := l1.size - 1 } :
            LinkedList T).head (a :: as0) (w :: ws) := hch2
      rw [String'_spec hch2', hstr]

/-- C5 witness: the amended statement on the list `[1]` with the fresh
value `2`. -/
theorem append_remove_roundtrip_witness :
    ∃ h1 l1 h2 l2,
      Append ([{ value := 1, next := none }] : Heap Nat)
        { head := some 0, tail := some 0, size := 1 } 2 = some (h1, l1) ∧
      Remove h1 l1 2 = some (h2, l2) ∧
      String' h2 l2 =
        String' ([{ value := 1, next := none }] : Heap Nat)
          { head := some 0, tail := some 0, size := 1 } :=
  @append_remove_roundtrip Nat _ _ [{ value := 1, next := none }]
    { head := some 0, tail := some 0, size := 1 } [0] [1]
    (ChainV.cons rfl ChainV.nil) rfl 2 (by decide)

/-- C6 counterexample: appending the duplicate sequence `1, 1` to a fresh
list and searching for the second value returns position `0`, not the
claimed `i - 1 = 1`. -/
theorem append_search_counterexample :
    appendAll ([] : Heap Nat) (NewLinkedList Nat) [1, 1] =
      some ([{ value := 1, next := some 1 }, { value := 1, next := none }],
        { head := some 0, tail := some 1, size := 2 }) ∧
    Search ([{ value := 1, next := some 1 }, { value := 1, next := none }] :
        Heap Nat) { head := some 0, tail := some 1, size := 2 } 1 =
      some 0 ∧
    (0 : Int) ≠ 2 - 1 :=
  ⟨rfl, rfl, by decide⟩

/-- C6 (amended): for every sequence of pairwise-distinct values appended in
order to a fresh list, `String'` renders `[v1 v2 ... vn]` and `Search vi`
returns the zero-based position `i - 1`. -/
theorem append_sequence_spec {T : Type} [DecidableEq T] [ToString T]
    (vs : List T) (hnd : vs.Nodup) :
    ∃ h' l', appendAll ([] : Heap T) (NewLinkedList T) vs = some (h', l') ∧
      String' h' l' = some (renderSpec vs) ∧
      ∀ (i : Nat) (hi : i < vs.length),
        Search h' l' (vs.get ⟨i, hi⟩) = some (i : Int) := by
  rcases @appendAll_spec T vs [] (NewLinkedList T) [] [] ChainV.nil rfl
    with ⟨h', l', as', heq, hc', ht'⟩
  simp only [List.nil_append] at hc' ht'
  refine ⟨h', l', heq, String'_spec hc', ?_⟩
  intro i hi
  have hlen : as'.length = vs.length := hc'.length_eq
  have hhead : ∃ a0, l'.head = some a0 := by
    cases hvv : vs with
    | nil =>
      rw [hvv] at hi
      simp at hi
    | cons w' ws' =>
      rw [hvv] at hc'
      rcases hc'.cons_value_inv with ⟨a0, -, -, hp0, -, -, -⟩
      exact ⟨a0, hp0⟩
  have hget : vs.get? i = some (vs.get ⟨i, hi⟩) := List.get?_eq_get hi
  have hfirst : ∀ j, j < i → vs.get? j ≠ some (vs.get ⟨i, hi⟩) := by
    intro j hj habs
    have hjlt : j < vs.length := lt_trans hj hi
    rw [List.get?_eq_get hjlt] at habs
    rcases Option.some.inj habs with hjeq
    have : j = i := by
      have h1 : vs.get ⟨j, hjlt⟩ = vs[j] := List.get_eq_getElem vs _
      have h2 : vs.get ⟨i, hi⟩ = vs[i] := List.get_eq_getElem vs _
      rw [h1, h2] at hjeq
      exact (hnd.getElem_inj_iff).mp hjeq
    omega
  rcases hhead with ⟨a0, hp0⟩
  have hifuel : i < h'.length + 1 := by
    have := hc'.length_le
    omega
  have hrun := searchLoop_found hc' i hget hfirst 0 (h'.length + 1) hifuel
  rw [hp0] at hrun
  simp only [Search, hp0, hrun, zero_add]

/-- C6 witness: the amended statement for the distinct sequence
`[4, 7, 9]`. -/
theorem append_sequence_spec_witness :
    ∃ h' l',
      appendAll ([] : Heap Nat) (NewLinkedList Nat) [4, 7, 9] =
        some (h', l') ∧
      String' h' l' = some (renderSpec [4, 7, 9]) ∧
      ∀ (i : Nat) (hi : i < ([4, 7, 9] : List Nat).length),
        Search h' l' (([4, 7, 9] : List Nat).get ⟨i, hi⟩) = some (i : Int) :=
  append_sequence_spec [4, 7, 9] (by decide)

/-- C7: for a well-formed list holding values `vs`: `Get i` with
`0 ≤ i < |vs|` returns the i-th value (insertion order) with no error;
`Get` on a list with no nodes fails with the `EmptyList` error
(`"lista vacía"`); and `Get p` with `p ≥ |vs|` on a non-empty list fails
with the `InvalidPosition` error (`"posición inválida"`).  `Get` takes the
state only as input, so the list is left unchanged in every case. -/
theorem get_spec {T : Type} {h : Heap T} {l : LinkedList T}
    {as : List Nat} {vs : List T} (hc : ChainV h l.head as vs) :
    (∀ (i : Nat) (hi : i < vs.length),
      Get h l (i : Int) = some (Except.ok (vs.get ⟨i, hi⟩))) ∧
    (vs = [] → ∀ p : Int, Get h l p = some (Except.error "lista vacía")) ∧
    (vs ≠ [] → ∀ p : Int, (vs.length : Int) ≤ p →
      Get h l p = some (Except.error "posición inválida")) := by
  have hlen : as.length = vs.length := hc.length_eq
  refine ⟨?_, ?_, ?_⟩
  · intro i hi
    have hhead : ∃ a0, l.head = some a0 := by
      cases vs with
      | nil => simp at hi
      | cons w' ws' =>
        rcases hc.cons_value_inv with ⟨a0, -, -, hp0, -, -, -⟩
        exact ⟨a0, hp0⟩
    rcases hhead with ⟨a0, hp0⟩
    have htn : ((i : Int)).toNat = i := Int.toNat_natCast i
    rcases getLoop_pos hc i (by omega) (i + 1) (by omega)
      with ⟨b, n, hrun, -, hb, hval⟩
    have hval' : n.value = vs.get ⟨i, hi⟩ := by
      rw [List.get?_eq_get hi] at hval
      exact (Option.some.inj hval).symm
    rw [hp0] at hrun
    simp only [Get, hp0, htn, hrun, hb, hval']
  · intro hnil p
    subst hnil
    rcases hc.nil_value_inv with ⟨hp, -⟩
    simp [Get, hp]
  · intro hvne p hp
    have hhead : ∃ a0, l.head = some a0 := by
      cases vs with
      | nil => exact absurd rfl hvne
      | cons w' ws' =>
        rcases hc.cons_value_inv with ⟨a0, -, -, hp0, -, -, -⟩
        exact ⟨a0, hp0⟩
    rcases hhead with ⟨a0, hp0⟩
    have hcast : (as.length : Int) ≤ p := by omega
    have hrun := getLoop_off hc p hcast (p.toNat + 1) (by omega)
    rw [hp0] at hrun
    simp only [Get, hp0, hrun]

/-- C7 witness: the statement on the two-element list `[10 20]` at
positions `1` (valid) and `5` (out of range). -/
theorem get_spec_witness :
    Get ([{ value := 10, next := some 1 }, { value := 20, next := none }] :
        Heap Nat) { head := some 0, tail := some 1, size := 2 } 1 =
      some (Except.ok 20) ∧
    Get ([{ value := 10, next := some 1 }, { value := 20, next := none }] :
        Heap Nat) { head := some 0, tail := some 1, size := 2 } 5 =
      some (Except.error "posición inválida") := by
  have hs := @get_spec Nat
    [{ value := 10, next := some 1 }, { value := 20, next := none }]
    { head := some 0, tail := some 1, size := 2 } [0, 1] [10, 20]
    (ChainV.cons rfl (ChainV.cons rfl ChainV.nil))
  exact ⟨hs.1 1 (by decide), hs.2.2 (by decide) 5 (by decide)⟩

/-- C8: `IntercalarListas` returns the `nil` sentinel exactly when an input
reference is absent; for two present (possibly empty) lists it returns a
brand-new list — all its node addresses are fresh (at least the old heap
size) — whose value sequence alternates one value from each input while
both have nodes left and then carries the leftovers of the longer input
(`interleaveSpec`), and both source chains are left unchanged. -/
theorem intercalar_spec {T : Type} {h : Heap T} {recv L1 L2 : LinkedList T}
    {as1 as2 : List Nat} {vs1 vs2 : List T}
    (hc1 : ChainV h L1.head as1 vs1) (hc2 : ChainV h L2.head as2 vs2) :
    (∀ l2, IntercalarListas h recv none l2 = some (h, recv, none)) ∧
    (IntercalarListas h recv (some L1) none = some (h, recv, none)) ∧
    (∃ h' res ras, IntercalarListas h recv (some L1) (some L2) =
        some (h', recv, some res) ∧
      ChainV h' res.head ras (interleaveSpec vs1 vs2) ∧
      res.tail = ras.getLast? ∧
      (∀ b ∈ ras, h.length ≤ b) ∧
      ChainV h' L1.head as1 vs1 ∧ ChainV h' L2.head as2 vs2 ∧
      ∀ b, b < h.length → Heap.get h' b = h.get b) := by
  refine ⟨fun l2 => rfl, rfl, ?_⟩
  have hb1 := hc1.addr_lt
  have hb2 := hc2.addr_lt
  have hr0 : ResInv h.length h { head := none, tail := none, size := 0 }
      [] [] := ⟨ChainV.nil, rfl, by simp, le_refl _⟩
  have hminle : min vs1.length vs2.length ≤ h.length + 1 := by
    have ha := hc1.length_le
    have hb := hc1.length_eq
    have := min_le_left vs1.length vs2.length
    omega
  rcases intercalarLoop_spec vs1 vs2 hc1 hc2 hb1 hb2 hr0 (h.length + 1)
    hminle with ⟨h1, r1, ras1, c1', c2', as1', vs1', as2', vs2', pref,
      hloop, hr1, hch1', hch2', hb1', hb2', hor, hglue, hle1, hle2,
      hlen1, hframe1⟩
  have hfuel1 : as1'.length ≤ h.length + 1 := by
    have e1 := hch1'.length_eq
    have e2 := hc1.length_eq
    have e3 := hc1.length_le
    omega
  rcases appendRest_spec vs1' hch1' hb1' hr1 (h.length + 1) hfuel1 with
    ⟨h2, r2, ras2, hrest1, hr2, hlen2, hframe2⟩
  have hch2'' : ChainV h2 c2' as2' vs2' :=
    hch2'.congr fun b hb => hframe2 b (hb2' b hb)
  have hfuel2 : as2'.length ≤ h.length + 1 := by
    have e1 := hch2'.length_eq
    have e2 := hc2.length_eq
    have e3 := hc2.length_le
    omega
  rcases appendRest_spec vs2' hch2'' hb2' hr2 (h.length + 1) hfuel2 with
    ⟨h3, r3, ras3, hrest2, hr3, hlen3, hframe3⟩
  obtain ⟨hcr3, htr3, hbr3, -⟩ := hr3
  have hframe : ∀ b, b < h.length → Heap.get h3 b = h.get b := fun b hb =>
    ((hframe3 b hb).trans (hframe2 b hb)).trans (hframe1 b hb)
  have hvals : ((([] : List T) ++ pref) ++ vs1') ++ vs2' =
      interleaveSpec vs1 vs2 := by
    simpa [List.append_assoc] using hglue
  rw [hvals] at hcr3
  refine ⟨h3, r3, (([] ++ ras1) ++ ras2) ++ ras3, ?_, hcr3, htr3, hbr3,
    hc1.congr (fun b hb => hframe b (hb1 b hb)),
    hc2.congr (fun b hb => hframe b (hb2 b hb)), hframe⟩
  simp only [IntercalarListas, hloop, hrest1, hrest2]

/-- C8 witness: interleaving `[1 3 5]` with `[2 4]` yields a fresh list
holding `[1 2 3 4 5]`, and an absent first input yields the `nil`
sentinel. -/
theorem intercalar_spec_witness :
    IntercalarListas
        ([{ value := 1, next := some 1 }, { value := 3, next := some 2 },
          { value := 5, next := none }, { value := 2, next := some 4 },
          { value := 4, next := none }] : Heap Nat) (NewLinkedList Nat)
        none (some { head := some 3, tail := some 4, size := 2 }) =
      some ([{ value := 1, next := some 1 }, { value := 3, next := some 2 },
          { value := 5, next := none }, { value := 2, next := some 4 },
          { value := 4, next := none }], NewLinkedList Nat, none) ∧
    ∃ h' res ras,
      IntercalarListas
          ([{ value := 1, next := some 1 }, { value := 3, next := some 2 },
            { value := 5, next := none }, { value := 2, next := some 4 },
            { value := 4, next := none }] : Heap Nat) (NewLinkedList Nat)
          (some { head := some 0, tail := some 2, size := 3 })
          (some { head := some 3, tail := some 4, size := 2 }) =
        some (h', NewLinkedList Nat, some res) ∧
      ChainV h' res.head ras [1, 2, 3, 4, 5] ∧
      res.tail = ras.getLast? ∧
      (∀ b ∈ ras, 5 ≤ b) ∧
      ChainV h' (some 0) [0, 1, 2] [1, 3, 5] ∧
      ChainV h' (some 3) [3, 4] [2, 4] ∧
      ∀ b, b < 5 → Heap.get h' b =
        Heap.get ([{ value := 1, next := some 1 }, { value := 3, next := some 2 },
          { value := 5, next := none }, { value := 2, next := some 4 },
          { value := 4, next := none }] : Heap Nat) b := by
  have hs := @intercalar_spec Nat
    [{ value := 1, next := some 1 }, { value := 3, next := some 2 },
     { value := 5, next := none }, { value := 2, next := some 4 },
     { value := 4, next := none }] (NewLinkedList Nat)
    { head := some 0, tail := some 2, size := 3 }
    { head := some 3, tail := some 4, size := 2 }
    [0, 1, 2] [3, 4] [1, 3, 5] [2, 4]
    (ChainV.cons rfl (ChainV.cons rfl (ChainV.cons rfl ChainV.nil)))
    (ChainV.cons rfl (ChainV.cons rfl ChainV.nil))
  exact ⟨hs.1 (some { head := some 3, tail := some 4, size := 2 }), hs.2.2⟩

/-- C9: `ConcatenarListas` returns `l2` (heap untouched) when `l1` is
empty, returns `l1` untouched when `l2` is empty, and otherwise links
`l1.tail.next` to `l2.head`, sets the result's tail to `l2.tail`, sums the
cached sizes and returns that updated `l1`, so the spliced chain holds
`l1`'s values followed by `l2`'s. -/
theorem concatenar_spec {T : Type} {h : Heap T} {recv L1 L2 : LinkedList T}
    {as1 as2 : List Nat} {vs1 vs2 : List T}
    (hc1 : ChainV h L1.head as1 vs1) (ht1 : L1.tail = as1.getLast?)
    (hc2 : ChainV h L2.head as2 vs2) (ht2 : L2.tail = as2.getLast?)
    (hdisj : ∀ b ∈ as1, b ∉ as2) :
    (L1.head = none → ConcatenarListas h recv (some L1) (some L2) =
      some ⟨h, recv, some L1, some L2, some L2⟩) ∧
    (L1.head ≠ none → L2.head = none →
      ConcatenarListas h recv (some L1) (some L2) =
        some ⟨h, recv, some L1, some L2, some L1⟩) ∧
    (L1.head ≠ none → L2.head ≠ none →
      ∃ t w, L1.tail = some t ∧
        Heap.get h t = some { value := w, next := none } ∧
        ConcatenarListas h recv (some L1) (some L2) =
          some ⟨Heap.set h t { value := w, next := L2.head }, recv,
            some { head := L1.head, tail := L2.tail,
                   size := L1.size + L2.size }, some L2,
            some { head := L1.head, tail := L2.tail,
                   size := L1.size + L2.size }⟩ ∧
        ChainV (Heap.set h t { value := w, next := L2.head }) L1.head
          (as1 ++ as2) (vs1 ++ vs2) ∧
        L2.tail = (as1 ++ as2).getLast?) := by
  refine ⟨?_, ?_, ?_⟩
  · intro hL1
    simp [ConcatenarListas, hL1]
  · intro hL1 hL2
    cases hh1 : L1.head with
    | none => exact absurd hh1 hL1
    | some a1 => simp [ConcatenarListas, hh1, hL2]
  · intro hL1 hL2
    cases hh1 : L1.head with
    | none => exact absurd hh1 hL1
    | some a1 =>
      cases hh2 : L2.head with
      | none => exact absurd hh2 hL2
      | some a2 =>
        rw [hh1] at hc1
        rcases hc1.some_inv with ⟨v1, nx1, as1', vs1', has1, -, -, -⟩
        subst has1
        have hne1 : (a1 :: as1' : List Nat) ≠ [] := by simp
        rw [List.getLast?_eq_getLast _ hne1] at ht1
        rcases hc1.getLast (List.getLast?_eq_getLast _ hne1) with ⟨w, hw, -⟩
        have htmem : (a1 :: as1').getLast hne1 ∈ a1 :: as1' :=
          List.getLast_mem hne1
        have hq : ChainV
            (Heap.set h ((a1 :: as1').getLast hne1)
              { value := w, next := L2.head }) L2.head as2 vs2 :=
          hc2.set_of_notMem _ (hdisj _ htmem)
        have hsp := hc1.splice (List.getLast?_eq_getLast _ hne1) hw hq
        rw [hh2] at hsp
        have hne2 : as2 ≠ [] := by
          have hc2' := hc2
          rw [hh2] at hc2'
          rcases hc2'.some_inv with ⟨-, -, as2', -, has2, -, -, -⟩
          rw [has2]
          simp
        refine ⟨(a1 :: as1').getLast hne1, w, ht1, hw, ?_, hsp, ?_⟩
        · simp only [ConcatenarListas, hh1, hh2, ht1, hw]
        · rw [List.getLast?_append, ht2, List.getLast?_eq_getLast as2 hne2]
          simp

/-- C9 witness: concatenating `[1 2]` and `[3 4]` splices node 1 onto node
2's chain, yielding the chain `[1 2 3 4]` with the summed size. -/
theorem concatenar_spec_witness :
    ∃ t w,
      ({ head := some 0, tail := some 1, size := 2 } :
        LinkedList Nat).tail = some t ∧
      Heap.get ([{ value := 1, next := some 1 }, { value := 2, next := none },
        { value := 3, next := some 3 }, { value := 4, next := none }] :
          Heap Nat) t = some { value := w, next := none } ∧
      ConcatenarListas
          ([{ value := 1, next := some 1 }, { value := 2, next := none },
            { value := 3, next := some 3 }, { value := 4, next := none }] :
              Heap Nat) (NewLinkedList Nat)
          (some { head := some 0, tail := some 1, size := 2 })
          (some { head := some 2, tail := some 3, size := 2 }) =
        some ⟨Heap.set
            [{ value := 1, next := some 1 }, { value := 2, next := none },
             { value := 3, next := some 3 }, { value := 4, next := none }]
            t { value := w, next := some 2 }, NewLinkedList Nat,
          some { head := some 0, tail := some 3, size := 4 },
          some { head := some 2, tail := some 3, size := 2 },
          some { head := some 0, tail := some 3, size := 4 }⟩ ∧
      ChainV (Heap.set
          [{ value := 1, next := some 1 }, { value := 2, next := none },
           { value := 3, next := some 3 }, { value := 4, next := none }]
          t { value := w, next := some 2 }) (some 0)
        [0, 1, 2, 3] [1, 2, 3, 4] ∧
      ({ head := some 2, tail := some 3, size := 2 } :
        LinkedList Nat).tail = ([0, 1] ++ [2, 3] : List Nat).getLast? := by
  have hs := @concatenar_spec Nat
    [{ value := 1, next := some 1 }, { value := 2, next := none },
     { value := 3, next := some 3 }, { value := 4, next := none }]
    (NewLinkedList Nat)
    { head := some 0, tail := some 1, size := 2 }
    { head := some 2, tail := some 3, size := 2 }
    [0, 1] [2, 3] [1, 2] [3, 4]
    (ChainV.cons rfl (ChainV.cons rfl ChainV.nil)) rfl
    (ChainV.cons rfl (ChainV.cons rfl ChainV.nil)) rfl (by decide)
  exact hs.2.2 (by simp) (by simp)

/-- C10: although declared as methods, `ConcatenarListas` and
`IntercalarListas` never read or modify their receiver: for any two
receiver states the results agree except for the (unchanged) receiver
component, and the receiver comes back exactly as it went in. -/
theorem receiver_independence {T : Type} (h : Heap T)
    (l l' : LinkedList T) (l1 l2 : Option (LinkedList T)) :
    ConcatenarListas h l l1 l2 =
      (ConcatenarListas h l' l1 l2).map (fun r => { r with recv := l }) ∧
    (∀ r, ConcatenarListas h l l1 l2 = some r → r.recv = l) ∧
    IntercalarListas h l l1 l2 =
      (IntercalarListas h l' l1 l2).map (fun t => (t.1, l, t.2.2)) ∧
    (∀ t, IntercalarListas h l l1 l2 = some t → t.2.1 = l) := by
  have hcon : ∀ lr : LinkedList T, ConcatenarListas h lr l1 l2 =
      (ConcatenarListas h l' l1 l2).map (fun r => { r with recv := lr }) := by
    intro lr
    cases l1 with
    | none => rfl
    | some L1 =>
      cases hh1 : L1.head with
      | none => simp [ConcatenarListas, hh1]
      | some a1 =>
        cases l2 with
        | none => simp [ConcatenarListas, hh1]
        | some L2 =>
          cases hh2 : L2.head with
          | none => simp [ConcatenarListas, hh1, hh2]
          | some a2 =>
            cases htl : L1.tail with
            | none => simp [ConcatenarListas, hh1, hh2, htl]
            | some t =>
              cases hg : Heap.get h t with
              | none => simp [ConcatenarListas, hh1, hh2, htl, hg]
              | some tn => simp [ConcatenarListas, hh1, hh2, htl, hg]
  have hint : ∀ lr : LinkedList T, IntercalarListas h lr l1 l2 =
      (IntercalarListas h l' l1 l2).map (fun t => (t.1, lr, t.2.2)) := by
    intro lr
    cases l1 with
    | none => rfl
    | some L1 =>
      cases l2 with
      | none => rfl
      | some L2 =>
        cases hq : intercalarLoop h (h.length + 1) L1.head L2.head
            { head := none, tail := none, size := 0 } with
        | none => simp [IntercalarListas, hq]
        | some q =>
          obtain ⟨h1, r1, c1, c2⟩ := q
          cases hq2 : appendRest h1 (h.length + 1) c1 r1 with
          | none => simp [IntercalarListas, hq, hq2]
          | some q2 =>
            obtain ⟨h2, r2⟩ := q2
            cases hq3 : appendRest h2 (h.length + 1) c2 r2 with
            | none => simp [IntercalarListas, hq, hq2, hq3]
            | some q3 => simp [IntercalarListas, hq, hq2, hq3]
  refine ⟨hcon l, ?_, hint l, ?_⟩
  · intro r hr
    rw [hcon l] at hr
    rcases Option.map_eq_some'.mp hr with ⟨r0, -, hr0⟩
    rw [← hr0]
  · intro t htq
    rw [hint l] at htq
    rcases Option.map_eq_some'.mp htq with ⟨t0, -, ht0⟩
    rw [← ht0]

/-- C10 witness: the receiver-independence statement at a concrete heap,
two different receivers, and two present empty lists. -/
theorem receiver_independence_witness :
    ConcatenarListas ([] : Heap Nat) { head := some 9, tail := none, size := 5 }
        (some (NewLinkedList Nat)) (some (NewLinkedList Nat)) =
      (ConcatenarListas ([] : Heap Nat) (NewLinkedList Nat)
          (some (NewLinkedList Nat)) (some (NewLinkedList Nat))).map
        (fun r => { r with
          recv := { head := some 9, tail := none, size := 5 } }) ∧
    ({ heap := ([] : Heap Nat),
       recv := { head := some 9, tail := none, size := 5 },
       l1after := some (NewLinkedList Nat),
       l2after := some (NewLinkedList Nat),
       ret := some (NewLinkedList Nat) } : ConcatResult Nat).recv =
      { head := some 9, tail := none, size := 5 } := by
  have hs := receiver_independence ([] : Heap Nat)
    { head := some 9, tail := none, size := 5 } (NewLinkedList Nat)
    (some (NewLinkedList Nat)) (some (NewLinkedList Nat))
  exact ⟨hs.1, hs.2.1 _ rfl⟩

end linkedlist
